import Mathlib

/-!
Verification of the qoc matrix-exponential and matrix-algebra kernel.

The source consists of two Python modules:

* src/qoc/standard/functions/expm.py - the forward primitives expm and
  expm_fastgrad (both of which call the external routine scipy.linalg.expm),
  and their hand-written vector-Jacobian-product rules.
* src/qoc/standard/functions/convenience.py - pure matrix-algebra helpers
  (commutator, gram_schmidt, project, column-vector/matrix conversions, ...).

N-by-n complex matrices are embedded as Matrix (Fin n) (Fin n) Complex; the
control matrix list is a Lean List of such matrices; vectors are functions
Fin n -> Complex (or -> Real for the real-valued gram_schmidt scenario).
Python accumulation loops (`for u in l: acc += f(u)`) are embedded as left
folds via accumAdd below.
-/

namespace Qoc

noncomputable section

open Matrix Finset

/-- Embedding of a Python accumulation loop
`acc = 0; for a in l: acc += f(a)` as a left fold starting from zero. -/
def accumAdd {A V : Type*} [AddCommMonoid V] (l : List A) (f : A → V) : V :=
  l.foldl (fun acc a => acc + f a) 0

/-- `expm(matrix)`: the forward primitive computes `la.expm(matrix)` where
`la.expm` is the external routine scipy.linalg.expm.  The external routine is
not part of this repository, so it is passed as an explicit parameter
`la_expm`. -/
def expm {n : ℕ} (la_expm : Matrix (Fin n) (Fin n) ℂ → Matrix (Fin n) (Fin n) ℂ)
    (matrix : Matrix (Fin n) (Fin n) ℂ) : Matrix (Fin n) (Fin n) ℂ :=
  la_expm matrix

/-- `expm_fastgrad(matrix, control_matrix_list)`: the fast-path forward
primitive.  Its body is `exp_matrix = la.expm(matrix); return exp_matrix`,
identical to `expm`; the `control_matrix_list` argument appears only so the
backward rule can access it. -/
def expm_fastgrad {n : ℕ}
    (la_expm : Matrix (Fin n) (Fin n) ℂ → Matrix (Fin n) (Fin n) ℂ)
    (matrix : Matrix (Fin n) (Fin n) ℂ)
    (control_matrix_list : List (Matrix (Fin n) (Fin n) ℂ)) :
    Matrix (Fin n) (Fin n) ℂ :=
  la_expm matrix

/-- `_expm_fastgrad_vjp(exp_matrix, matrix, control_matrix_list)`:
returns the function mapping the cotangent `dfinal_dexpm` to
`dfinal_dexpm @ dexpm_dcontrols`, where `dexpm_dcontrols` is accumulated
from the zero matrix by adding `control_matrix @ exp_matrix` for each
control matrix in the list.  The `matrix` argument is used only for its
shape (`matrix_size = matrix.shape[0]`), which here is the type index `n`. -/
def expm_fastgrad_vjp {n : ℕ} (exp_matrix matrix : Matrix (Fin n) (Fin n) ℂ)
    (control_matrix_list : List (Matrix (Fin n) (Fin n) ℂ)) :
    Matrix (Fin n) (Fin n) ℂ → Matrix (Fin n) (Fin n) ℂ :=
  fun dfinal_dexpm =>
    dfinal_dexpm * accumAdd control_matrix_list (fun control_matrix => control_matrix * exp_matrix)

/-- `_expm_fastgrad_vjp_dummy(exp_matrix, matrix, control_matrix_list)`:
returns the function `dummy(g) = 0.0`, the gradient rule for the
control-matrix-list argument of `expm_fastgrad`. -/
def expm_fastgrad_vjp_dummy {n : ℕ} (exp_matrix matrix : Matrix (Fin n) (Fin n) ℂ)
    (control_matrix_list : List (Matrix (Fin n) (Fin n) ℂ)) :
    Matrix (Fin n) (Fin n) ℂ → ℂ :=
  fun _g => 0

/-- `_expm_vjp(exp_matrix, matrix)`: returns the function mapping the
cotangent `dfinal_dexpm` to the matrix `dfinal_dmatrix` whose `(i, j)` entry
is `np.sum(np.multiply(dfinal_dexpm[i, :], exp_matrix[j, :]))`.  The output
shape is `matrix_size x matrix_size` with `matrix_size = matrix.shape[0]`,
here the type index `n`. -/
def expm_vjp {n : ℕ} (exp_matrix matrix : Matrix (Fin n) (Fin n) ℂ) :
    Matrix (Fin n) (Fin n) ℂ → Matrix (Fin n) (Fin n) ℂ :=
  fun dfinal_dexpm =>
    Matrix.of fun i j => ∑ m, dfinal_dexpm i m * exp_matrix j m

/-- `commutator(a, b) = anp.matmul(a, b) - anp.matmul(b, a)`. -/
def commutator {n : ℕ} (a b : Matrix (Fin n) (Fin n) ℂ) : Matrix (Fin n) (Fin n) ℂ :=
  a * b - b * a

/-- `np.dot`/`anp.dot` of two equal-length vectors: the unconjugated sum of
products (numpy does not conjugate complex inputs). -/
def npDot {n : ℕ} (x y : Fin n → ℂ) : ℂ := ∑ j, x j * y j

/-- `project(x, basis)`: starts from `y = np.zeros_like(x)` and accumulates
`y += anp.dot(x, basis[i]) * basis[i]` over the rows of `basis` in order. -/
def project {m n : ℕ} (x : Fin n → ℂ) (basis : Matrix (Fin m) (Fin n) ℂ) :
    Fin n → ℂ :=
  accumAdd (List.finRange m) (fun i => npDot x (basis i) • basis i)

/-- The Hermitian inner product (conjugating the first argument): the
standard notion with respect to which a set of complex vectors is called
orthonormal.  Stated from the specification, for comparison with the source
function `project`, which uses the unconjugated `npDot`. -/
def hermInner {n : ℕ} (x y : Fin n → ℂ) : ℂ := ∑ j, star (x j) * y j

/-- Real `np.dot`: the sum of products of components. -/
def dotR {n : ℕ} (x y : Fin n → ℝ) : ℝ := ∑ j, x j * y j

/-- `np.linalg.norm` of a real vector: the square root of the sum of
squares of its components (the Euclidean norm). -/
def npNorm {n : ℕ} (y : Fin n → ℝ) : ℝ :=
  Real.sqrt (∑ j, y j ^ 2)

/-- One projection accumulation of `gram_schmidt`: `proj.sum(0)`, the sum
over the rows `y` of the running orthogonal set `Y` of
`(X[i].dot(y) / norm(y)**2) * y`. -/
def gs_proj_sum {n : ℕ} (xi : Fin n → ℝ) (Y : List (Fin n → ℝ)) :
    Fin n → ℝ :=
  accumAdd Y (fun y => (dotR xi y / npNorm y ^ 2) • y)

/-- The orthogonalization loop of `gram_schmidt` on the list of rows of `X`
(the `row_vecs=True` path; `row_vecs=False` only transposes the input and
output and is not needed here): `Y` starts as the first row of `X`, and each
subsequent row is appended after subtracting `proj.sum(0)`. -/
def gram_schmidt_core {n : ℕ} (X : List (Fin n → ℝ)) :
    List (Fin n → ℝ) :=
  match X with
  | [] => []
  | x0 :: rest => rest.foldl (fun Y xi => Y ++ [xi - gs_proj_sum xi Y]) [x0]

/-- `gram_schmidt(X, row_vecs=True, norm)`: runs the orthogonalization loop,
then, if `norm` is set, scales each output row by the reciprocal of its
Euclidean norm (`np.diag(1/np.linalg.norm(Y,axis=1)).dot(Y)`). -/
def gram_schmidt {n : ℕ} (X : List (Fin n → ℝ)) (norm : Bool) :
    List (Fin n → ℝ) :=
  let Y := gram_schmidt_core X
  if norm then Y.map (fun y => (npNorm y)⁻¹ • y) else Y

/-- `column_vector_list_to_matrix(column_vector_list) = anp.hstack(...)`:
horizontally stacks an ordered sequence of `m x 1` column vectors into an
`m x k` matrix. -/
def column_vector_list_to_matrix {m k : ℕ}
    (column_vector_list : Fin k → Matrix (Fin m) (Fin 1) ℂ) :
    Matrix (Fin m) (Fin k) ℂ :=
  Matrix.of fun r c => column_vector_list c r 0

/-- `matrix_to_column_vector_list(matrix)`: the ordered sequence whose `i`-th
entry is `anp.vstack(matrix[:, i])`, the `i`-th column of `matrix` as an
`m x 1` column vector. -/
def matrix_to_column_vector_list {m k : ℕ} (matrix : Matrix (Fin m) (Fin k) ℂ) :
    Fin k → Matrix (Fin m) (Fin 1) ℂ :=
  fun i => Matrix.of fun r _ => matrix r i

/-! ## Helper lemmas -/

theorem foldl_add_eq {A V : Type*} [AddCommMonoid V] (l : List A) (f : A → V)
    (z : V) : l.foldl (fun acc a => acc + f a) z = z + (l.map f).sum := by
  induction l generalizing z with
  | nil => simp
  | cons a t ih => simp [List.foldl, ih, add_assoc]

theorem accumAdd_eq_sum {A V : Type*} [AddCommMonoid V] (l : List A)
    (f : A → V) : accumAdd l f = (l.map f).sum := by
  simpa [accumAdd] using foldl_add_eq l f 0

theorem accumAdd_finRange {V : Type*} [AddCommMonoid V] (m : ℕ)
    (f : Fin m → V) : accumAdd (List.finRange m) f = ∑ i, f i := by
  rw [accumAdd_eq_sum, Fin.sum_univ_def]

/-! ## Claims -/

/-- Claim C1: for every n-by-n exponential output `E` and cotangent `G`, the
function returned by `_expm_vjp(E, M)` maps `G` to the matrix whose `(i, j)`
entry is the dot product of row `i` of `G` with row `j` of `E`, i.e.
`∑ m, G i m * E j m`; the output is an n-by-n matrix of the same shape as
`M` (the common type index `n`). -/
theorem expm_vjp_entries {n : ℕ} (E M G : Matrix (Fin n) (Fin n) ℂ)
    (i j : Fin n) :
    expm_vjp E M G i j = dotProduct (fun m => G i m) (fun m => E j m) :=
  rfl

/-- Claim C2: the function returned by
`_expm_fastgrad_vjp(E, M, control_matrix_list)` maps a cotangent `G` to
`G * D` where `D` is the sum, over the control matrices `H` in the list, of
`H * E`. -/
theorem expm_fastgrad_vjp_eq {n : ℕ} (E M : Matrix (Fin n) (Fin n) ℂ)
    (L : List (Matrix (Fin n) (Fin n) ℂ)) (G : Matrix (Fin n) (Fin n) ℂ) :
    expm_fastgrad_vjp E M L G = G * (L.map (fun H => H * E)).sum := by
  unfold expm_fastgrad_vjp
  rw [accumAdd_eq_sum]

/-- Claim C3: the forward computation of `expm_fastgrad(M, L)` returns
exactly the same matrix as `expm(M)` (both apply the same external
`la.expm` routine to `M`), and the result of `expm_fastgrad` does not
depend on the control matrix list `L`. -/
theorem expm_fastgrad_forward_eq_expm {n : ℕ}
    (la_expm : Matrix (Fin n) (Fin n) ℂ → Matrix (Fin n) (Fin n) ℂ)
    (M : Matrix (Fin n) (Fin n) ℂ) (L : List (Matrix (Fin n) (Fin n) ℂ)) :
    expm_fastgrad la_expm M L = expm la_expm M ∧
      ∀ L2 : List (Matrix (Fin n) (Fin n) ℂ),
        expm_fastgrad la_expm M L = expm_fastgrad la_expm M L2 :=
  ⟨rfl, fun _ => rfl⟩

/-- Claim C4: the gradient returned for the control-matrix-list input of
`expm_fastgrad` (the function produced by `_expm_fastgrad_vjp_dummy`) is
exactly zero, regardless of the cotangent supplied. -/
theorem expm_fastgrad_vjp_dummy_zero {n : ℕ}
    (E M : Matrix (Fin n) (Fin n) ℂ) (L : List (Matrix (Fin n) (Fin n) ℂ))
    (g : Matrix (Fin n) (Fin n) ℂ) :
    expm_fastgrad_vjp_dummy E M L g = 0 :=
  rfl

/-- Claim C8: `commutator(A, B) = A * B - B * A`, and the commutator is
antisymmetric: `commutator(A, B) = -commutator(B, A)`. -/
theorem commutator_spec {n : ℕ} (A B : Matrix (Fin n) (Fin n) ℂ) :
    commutator A B = A * B - B * A ∧ commutator A B = -commutator B A := by
  refine ⟨rfl, ?_⟩
  rw [commutator, commutator, neg_sub]

/-- Claim C9: the fast-path backward rule uses the exponentiated input
matrix only through its shape: for any two matrices `M1`, `M2` of the same
shape and fixed `E`, `L`, `G`, the backward maps agree. -/
theorem expm_fastgrad_vjp_matrix_irrelevant {n : ℕ}
    (E M1 M2 : Matrix (Fin n) (Fin n) ℂ)
    (L : List (Matrix (Fin n) (Fin n) ℂ)) (G : Matrix (Fin n) (Fin n) ℂ) :
    expm_fastgrad_vjp E M1 L G = expm_fastgrad_vjp E M2 L G :=
  rfl

/-- Claim C6: converting a matrix with at least one column to its ordered
sequence of column vectors and horizontally stacking them back round-trips
to the original matrix exactly. -/
theorem column_vector_roundtrip {m k : ℕ} (hk : 0 < k)
    (M : Matrix (Fin m) (Fin k) ℂ) :
    column_vector_list_to_matrix (matrix_to_column_vector_list M) = M :=
  rfl

/-- Witness for claim C6 at the concrete 2-by-2 matrix `!![1, 2; 3, 4]`. -/
theorem column_vector_roundtrip_witness :
    0 < 2 ∧
      column_vector_list_to_matrix
          (matrix_to_column_vector_list (!![1, 2; 3, 4] : Matrix (Fin 2) (Fin 2) ℂ)) =
        !![1, 2; 3, 4] :=
  ⟨by decide, column_vector_roundtrip (by decide) _⟩

theorem head_foldl_append {A B : Type*} (g : List B → A → B) (l : List A)
    (y : B) (t : List B) :
    (l.foldl (fun Y a => Y ++ [g Y a]) (y :: t)).head? = some y := by
  induction l generalizing t with
  | nil => rfl
  | cons a l ih => simpa using ih (t ++ [g (y :: t) a])

/-- Claim C10: for every input with at least one row, `gram_schmidt` with
`row_vecs=True` and `norm=False` returns a matrix whose first row is exactly
the first row of the input. -/
theorem gram_schmidt_first_row {n : ℕ} (x : Fin n → ℝ)
    (rest : List (Fin n → ℝ)) :
    (gram_schmidt (x :: rest) false).head? = some x := by
  unfold gram_schmidt gram_schmidt_core
  simpa using head_foldl_append (fun Y xi => xi - gs_proj_sum xi Y) rest x []

/-- Counterexample to claim C5 as stated: the single-row complex basis
`(i)` is orthonormal in the standard Hermitian sense, and `x = (i)` lies in
its span, yet `project x basis = (-i) ≠ x`, because `project` uses the
unconjugated `np.dot`. -/
theorem project_hermitian_counterexample :
    hermInner (fun _ => Complex.I : Fin 1 → ℂ) (fun _ => Complex.I) = 1 ∧
      (fun _ => Complex.I : Fin 1 → ℂ) =
        (fun j => ∑ i : Fin 1, (fun _ => (1 : ℂ)) i *
          (Matrix.of fun _ _ => Complex.I : Matrix (Fin 1) (Fin 1) ℂ) i j) ∧
      project (fun _ => Complex.I)
          (Matrix.of fun _ _ => Complex.I : Matrix (Fin 1) (Fin 1) ℂ) ≠
        (fun _ => Complex.I : Fin 1 → ℂ) := by
  refine ⟨?_, ?_, ?_⟩
  · simp [hermInner, Complex.star_def, Complex.conj_I, Complex.I_mul_I]
  · funext j
    simp
  · intro h
    have h0 := congrFun h 0
    simp only [project, accumAdd_finRange, Fin.sum_univ_one, npDot,
      Pi.smul_apply, smul_eq_mul, Matrix.of_apply, Complex.I_mul_I] at h0
    rw [neg_one_mul] at h0
    have him := congrArg Complex.im h0
    simp at him
    norm_num at him

/-- Claim C5 as amended: if the basis rows are orthonormal with respect to
the unconjugated bilinear dot product used by the code (in particular, for
any real-valued orthonormal basis), and `x` lies in their span, then
`project x basis = x` exactly. -/
theorem project_span_eq {m n : ℕ} (basis : Matrix (Fin m) (Fin n) ℂ)
    (horth : ∀ i j, npDot (basis i) (basis j) = if i = j then 1 else 0)
    (x : Fin n → ℂ) (c : Fin m → ℂ)
    (hx : x = fun j => ∑ i, c i * basis i j) :
    project x basis = x := by
  rw [project, accumAdd_finRange]
  have hdot : ∀ i : Fin m, npDot x (basis i) = c i := by
    intro i
    rw [hx]
    simp only [npDot]
    calc (∑ j, (∑ k, c k * basis k j) * basis i j)
        = ∑ j, ∑ k, c k * basis k j * basis i j := by
          refine Finset.sum_congr rfl fun j _ => ?_
          rw [Finset.sum_mul]
      _ = ∑ k, c k * ∑ j, basis k j * basis i j := by
          rw [Finset.sum_comm]
          refine Finset.sum_congr rfl fun k _ => ?_
          rw [Finset.mul_sum]
          refine Finset.sum_congr rfl fun j _ => ?_
          ring
      _ = ∑ k, c k * if k = i then 1 else 0 := by
          refine Finset.sum_congr rfl fun k _ => ?_
          rw [← horth k i]
          rfl
      _ = c i := by simp
  funext j
  rw [Finset.sum_apply]
  simp only [Pi.smul_apply, smul_eq_mul, hdot]
  exact (congrFun hx j).symm

/-- Witness for the amended claim C5 at the concrete one-dimensional real
basis `(1)` and vector `x = (5)`, which lies in its span with coefficient
`5`. -/
theorem project_span_eq_witness :
    (∀ i j : Fin 1, npDot ((Matrix.of fun _ _ => (1 : ℂ)) i)
        ((Matrix.of fun _ _ => (1 : ℂ) : Matrix (Fin 1) (Fin 1) ℂ) j) =
        if i = j then 1 else 0) ∧
      project (fun _ => (5 : ℂ))
          (Matrix.of fun _ _ => (1 : ℂ) : Matrix (Fin 1) (Fin 1) ℂ) =
        (fun _ => (5 : ℂ) : Fin 1 → ℂ) := by
  have horth : ∀ i j : Fin 1, npDot ((Matrix.of fun _ _ => (1 : ℂ)) i)
      ((Matrix.of fun _ _ => (1 : ℂ) : Matrix (Fin 1) (Fin 1) ℂ) j) =
      if i = j then 1 else 0 := by
    intro i j
    simp [npDot, Subsingleton.elim i j]
  refine ⟨horth, project_span_eq _ horth _ (fun _ => (5 : ℂ)) ?_⟩
  funext j
  simp

theorem npNorm_e0 : npNorm (![1, 0] : Fin 2 → ℝ) = 1 := by
  simp [npNorm, Fin.sum_univ_two]

theorem npNorm_e1 : npNorm (![0, 1] : Fin 2 → ℝ) = 1 := by
  simp [npNorm, Fin.sum_univ_two]

theorem gs_core_scenario :
    gram_schmidt_core [![(1 : ℝ), 0], ![1, 1]] = [![1, 0], ![0, 1]] := by
  have hproj : gs_proj_sum ![(1 : ℝ), 1] [![1, 0]] = ![1, 0] := by
    rw [gs_proj_sum, accumAdd_eq_sum]
    have hd : dotR ![(1 : ℝ), 1] ![1, 0] = 1 := by
      simp [dotR, Fin.sum_univ_two]
    simp [hd, npNorm_e0]
  have hrow : ![(1 : ℝ), 1] - ![1, 0] = ![0, 1] := by
    funext i
    fin_cases i <;> simp
  simp only [gram_schmidt_core, List.foldl]
  rw [hproj, hrow]
  rfl

/-- Claim C7: for the input `X = [[1,0],[1,1]]` with `row_vecs=True` and
`norm=True`, `gram_schmidt` returns two rows that are mutually orthogonal
and of unit Euclidean norm, and whose first row is a positive scalar
multiple of `[1,0]`. -/
theorem gram_schmidt_scenario :
    ∃ y0 y1 : Fin 2 → ℝ,
      gram_schmidt [![1, 0], ![1, 1]] true = [y0, y1] ∧
        dotR y0 y1 = 0 ∧ npNorm y0 = 1 ∧ npNorm y1 = 1 ∧
        ∃ c : ℝ, 0 < c ∧ y0 = c • ![1, 0] := by
  refine ⟨![1, 0], ![0, 1], ?_, ?_, npNorm_e0, npNorm_e1, 1, one_pos, ?_⟩
  · rw [gram_schmidt]
    simp only [if_true]
    rw [gs_core_scenario]
    simp [npNorm_e0, npNorm_e1]
  · simp [dotR, Fin.sum_univ_two]
  · rw [one_smul]

end

end Qoc
